import Mathlib

/-!
Shallow embedding of the SpamFilter core: the bootstrap resampler
(`Code/sampleWithReplacement.py`), the Bernoulli Naive Bayes classifier
(`Code/classifiers/naivebayes.py`), and the logistic-regression classifier
with its metrics helpers (`Code/logisticReg.py`).

Modelling conventions:
- Python/numpy floats are modelled as exact rationals `ℚ`; a float position
  that can hold NaN is `Option ℚ`, with `none` standing for NaN.
- A numpy matrix is a `List Row` (rows of rationals); vectors are `List ℚ`
  (or `List ℤ` for integer label vectors).
- The transcendental functions `np.exp`-based `sigmoid` and `np.log` are not
  rational-valued, so the definitions that apply them take the elementwise
  function (`sg`, `logf`) as an explicit parameter; every property proved
  below holds for an arbitrary such function.
- The pseudo-random draws (`np.random.choice`, `np.random.permutation`) are
  modelled as explicit arguments holding the drawn indices, following the
  spec's requirement that the random source be an explicit, seedable input.
- An operation that raises a Python exception (IndexError on out-of-range
  indexing, numpy 0/0 giving NaN is *not* an exception) returns `none`.
-/

namespace SpamFilter

/-- One row of a feature matrix: a list of rational feature values. -/
abbrev Row := List ℚ

/-- Dot product of two equal-length vectors (`np.dot` of a row with a
column vector). -/
def dotl (a b : List ℚ) : ℚ :=
  ((a.zip b).map (fun uv => uv.1 * uv.2)).sum

/-! ### Bootstrap resampler — `Code/sampleWithReplacement.py`

`sampleWithReplacement(n_instances, new_instances)` is
`np.random.choice(n_instances, new_instances, replace=True)`: it draws
`new_instances` indices from `[0, n_instances)`.  The draw is modelled as an
explicit argument (`indices` for one replicate, `draws i` for the i-th
replicate of `generateBootstraps`). -/

/-- Row lookup `X[k]`; an out-of-range index raises IndexError (`none`). -/
def rowAt (X : List Row) (k : ℕ) : Option Row := X[k]?

/-- The rows of `X` at the drawn indices, in draw order: the
`np.concatenate` loop of `generateReplicate` builds exactly the list of
rows `X[indices[0]], X[indices[1]], ...`. -/
def fetchRows (X : List Row) : List ℕ → Option (List Row)
  | [] => some []
  | k :: ks =>
    match rowAt X k, fetchRows X ks with
    | some r, some rs => some (r :: rs)
    | _, _ => none

/-- `generateReplicate(X, new_instances)` with the index draw explicit.
The source starts from `np.array([X[indices[0]]])` and appends
`np.array([X[indices[i]]])` for `1 <= i < new_instances`; when
`new_instances == 0`, or the draw has fewer than `new_instances` entries,
`indices[i]` raises IndexError (`none`). -/
def generateReplicate (X : List Row) (new_instances : ℕ) (indices : List ℕ) :
    Option (List Row) :=
  if new_instances = 0 ∨ indices.length < new_instances then none
  else fetchRows X (indices.take new_instances)

/-- The loop of `generateBootstraps`, accumulating the sequence of printed
replicates: iteration `i` performs its own call to `sampleWithReplacement`
(modelled as `draws i`). -/
def genLoop (X : List Row) (new_instances : ℕ) (draws : ℕ → List ℕ) :
    ℕ → ℕ → Option (List (List Row))
  | _, 0 => some []
  | i, Nat.succ k =>
    match generateReplicate X new_instances (draws i), genLoop X new_instances draws (i + 1) k with
    | some rep, some reps => some (rep :: reps)
    | _, _ => none

/-- `generateBootstraps(X, new_instances, n_replicates)`: generates and
prints one replicate per iteration; the sequence of printed matrices is the
observable output, modelled as the returned list. -/
def generateBootstraps (X : List Row) (new_instances n_replicates : ℕ)
    (draws : ℕ → List ℕ) : Option (List (List Row)) :=
  genLoop X new_instances draws 0 n_replicates

/-! ### Metrics — `Code/logisticReg.py` (`computeError`, `computeMetrics`) -/

/-- `computeError(y, predictions) = np.mean(y != predictions)`: the fraction
of mismatched entries.  (`np.mean` of an empty array is NaN; rational
division by zero returns `0`, the only point where the model and the float
code differ, and `fit` only evaluates it on nonempty vectors.) -/
def computeError (y predictions : List ℚ) : ℚ :=
  (((y.zip predictions).countP (fun uv => decide (uv.1 ≠ uv.2))) : ℚ) / (y.length : ℚ)

/-- The label set sklearn's `confusion_matrix(y, predictions)` uses: the
sorted distinct values occurring in either vector. -/
def confusionLabels (y predictions : List ℤ) : List ℤ :=
  List.insertionSort (fun a b => a ≤ b) (y ++ predictions).dedup

/-- sklearn `confusion_matrix(y, predictions)`: entry `(i, j)` counts the
examples whose actual label is `labels[i]` and predicted label `labels[j]`. -/
def confusion_matrix (y predictions : List ℤ) : List (List ℕ) :=
  (confusionLabels y predictions).map (fun a =>
    (confusionLabels y predictions).map (fun b =>
      (y.zip predictions).countP (fun uv => decide (uv.1 = a ∧ uv.2 = b))))

/-- `computeMetrics(y, predictions)`: reads `TP = cm[0][0]`, `FP = cm[0][1]`,
`FN = cm[1][0]`, `TN = cm[1][1]` off the confusion matrix.  When the matrix
is smaller than 2×2 (fewer than two distinct values occur), the Python
indexing raises IndexError (`none`). -/
def computeMetrics (y predictions : List ℤ) : Option (ℕ × ℕ × ℕ × ℕ) :=
  let cm := confusion_matrix y predictions
  match cm[0]?, cm[1]? with
  | some r0, some r1 =>
    match r0[0]?, r0[1]?, r1[0]?, r1[1]? with
    | some tp, some fp, some fn, some tn => some (tp, fp, fn, tn)
    | _, _, _, _ => none
  | _, _ => none

/-! ### Naive Bayes — `Code/classifiers/naivebayes.py`

Likelihood and prior entries are `Option ℚ` (`none` = NaN).  Every float
division in `fit` divides by a row count; numpy turns that into an
elementwise division whose `n = 0` case has numerator `0` (a sum over an
empty row selection, and `count(y == spam) = 0` when `N = 0`), i.e. IEEE
`0/0 = NaN`, with no exception raised. -/

namespace NB

/-- Float division of a sum `a` by a row count `n`: NaN (`none`) when
`n = 0` (always the `0/0` case here), `a / n` otherwise. -/
def countDiv (a : ℚ) (n : ℕ) : Option ℚ :=
  if n = 0 then none else some (a / n)

/-- One entry of `process_parameters(p, tolerance)`, i.e. the three masked
assignments `p[np.isnan(p)] = tolerance`, `p[p == 0] = tolerance`,
`p[p == 1] = 1 - tolerance` applied in that order to one position. -/
def processEntry (tolerance : ℚ) (v : Option ℚ) : Option ℚ :=
  let v1 : ℚ := match v with | none => tolerance | some q => q
  let v2 : ℚ := if v1 = 0 then tolerance else v1
  let v3 : ℚ := if v2 = 1 then 1 - tolerance else v2
  some v3

/-- `process_parameters(p, tolerance)` applied to a likelihood vector. -/
def process_parameters (tolerance : ℚ) (p : List (Option ℚ)) : List (Option ℚ) :=
  p.map (processEntry tolerance)

/-- The default of `process_parameters`'s `tolerance` parameter, `1e-10`.
`fit` calls `map(process_parameters, [likeli_ham, likeli_spam])`, which
passes no second argument, so this default is the tolerance actually used;
the local `tolerance = 1e-30` defined inside `fit` is never passed on. -/
def defaultTolerance : ℚ := 1 / 10 ^ 10

/-- Per-feature presence likelihood of one class:
`np.sum(X[indices_class], axis=0) / np.float(N_class)`, one entry per
feature column `d < D`. -/
def classLikelihood (D : ℕ) (rows : List Row) : List (Option ℚ) :=
  (List.range D).map (fun d => countDiv ((rows.map (fun r => r.getD d 0)).sum) rows.length)

/-- `fit(features, labels, ham_label=0, spam_label=1)`: priors from label
counts, per-class likelihoods from column sums, then stabilization with
`process_parameters` (at its default tolerance — see `defaultTolerance`).
Returns `(prior_ham, prior_spam, likeli_ham, likeli_spam)`. -/
def fit (X : List Row) (y : List ℤ) (ham_label spam_label : ℤ) :
    Option ℚ × Option ℚ × List (Option ℚ) × List (Option ℚ) :=
  let N := X.length
  let D := (X.headD []).length
  let prior_spam : Option ℚ :=
    countDiv ((y.countP (fun l => decide (l = spam_label))) : ℚ) N
  let prior_ham : Option ℚ := prior_spam.map (fun q => 1 - q)
  let rows_ham := ((X.zip y).filter (fun ry => decide (ry.2 = ham_label))).map Prod.fst
  let rows_spam := ((X.zip y).filter (fun ry => decide (ry.2 = spam_label))).map Prod.fst
  (prior_ham, prior_spam,
   process_parameters defaultTolerance (classLikelihood D rows_ham),
   process_parameters defaultTolerance (classLikelihood D rows_spam))

/-- The Bernoulli log-posterior of one class for one example:
`log(prior) + x · log(likeli) + (1-x) · log(1 - likeli)`, with `np.log`
passed in as `logf`. -/
def logPosterior (logf : ℚ → ℚ) (prior : ℚ) (likeli : List ℚ) (row : Row) : ℚ :=
  logf prior + dotl row (likeli.map logf)
    + dotl (row.map (fun x => 1 - x)) (likeli.map (fun q => logf (1 - q)))

/-- `predict(features, parameters, ham_label=0, spam_label=1)`: per example,
`predicted = (log_posterior_spam > log_posterior_ham)` cast to int, then
remapped by `predicted * 2 - 1` when `ham_label == -1`.  (`spam_label` is
accepted but never read by the source.)  Likelihood/prior entries are the
stabilized, NaN-free parameters produced by `fit`. -/
def predict (logf : ℚ → ℚ) (X : List Row) (prior_ham prior_spam : ℚ)
    (likeli_ham likeli_spam : List ℚ) (ham_label spam_label : ℤ) : List ℤ :=
  X.map (fun row =>
    let predicted : ℤ :=
      if logPosterior logf prior_spam likeli_spam row >
         logPosterior logf prior_ham likeli_ham row then 1 else 0
    if ham_label = -1 then predicted * 2 - 1 else predicted)

end NB

/-! ### Logistic regression — `Code/logisticReg.py`

`sigmoid(z) = 1 / (1 + exp(-z))` is transcendental, so each definition takes
the elementwise function `sg` as a parameter.  `np.random.permutation(N)`
is modelled as an explicit index list `perm` (a permutation of
`0, ..., N-1`, so every entry is `< N`); `X[perm, :]` is `applyPerm`. -/

namespace LR

/-- `addBias(X) = np.insert(X, 0, 1, axis=1)`: a leading column of ones. -/
def addBias (X : List Row) : List Row :=
  X.map (fun row => 1 :: row)

/-- Fancy-indexing `X[perm, :]`: row `i` of the result is `X[perm[i]]`.
(`np.random.permutation(N)` only yields indices `< N`, so the `getD`
default is never the value read.) -/
def applyPerm {α : Type} (d : α) (perm : List ℕ) (l : List α) : List α :=
  perm.map (fun k => l.getD k d)

/-- `gradient_update(theta, x, y, alpha)`:
`theta - alpha * (sigmoid(np.dot(x, theta)) - y) * x`, elementwise. -/
def gradient_update (sg : ℚ → ℚ) (theta x : List ℚ) (y alpha : ℚ) : List ℚ :=
  let s := sg (dotl x theta)
  (theta.zip x).map (fun txi => txi.1 - alpha * ((s - y) * txi.2))

/-- `predict(X, theta, add_bias)`: optionally bias-augment, then per row
emit `1.0` when `sigmoid(np.dot(row, theta)) > 0.5` and `0.0` otherwise
(the zeros array with `predictions[probs > 0.5] = 1`). -/
def predict (sg : ℚ → ℚ) (X : List Row) (theta : List ℚ) (add_bias : Bool) : List ℚ :=
  let Xb := if add_bias then addBias X else X
  Xb.map (fun row => if sg (dotl row theta) > 1 / 2 then (1 : ℚ) else 0)

/-- `predictSoft(X, theta, add_bias)`: same pipeline without thresholding. -/
def predictSoft (sg : ℚ → ℚ) (X : List Row) (theta : List ℚ) (add_bias : Bool) : List ℚ :=
  let Xb := if add_bias then addBias X else X
  Xb.map (fun row => sg (dotl row theta))

/-- The inner loop of `fit`:
`for j in range(N): theta = gradient_update(theta, X[j,:], y[j], alpha)`. -/
def innerPass (sg : ℚ → ℚ) (alpha : ℚ) (theta : List ℚ) (rows : List (Row × ℚ)) : List ℚ :=
  rows.foldl (fun th ry => gradient_update sg th ry.1 ry.2 alpha) theta

/-- One epoch of `fit` on the working state `(X, y, theta)`: re-apply the
permutation to the working copies of `X` and `y`, then run the per-example
gradient pass. -/
def epochStep (sg : ℚ → ℚ) (perm : List ℕ) (alpha : ℚ)
    (st : List Row × List ℚ × List ℚ) : List Row × List ℚ × List ℚ :=
  let X := applyPerm [] perm st.1
  let y := applyPerm 0 perm st.2.1
  let theta := innerPass sg alpha st.2.2 (X.zip y)
  (X, y, theta)

/-- The epoch loop of `fit`, counting down the remaining epochs: after each
epoch, compute the training error on the re-ordered set and break when it is
within `threshold` of the previous epoch's error. -/
def fitLoop (sg : ℚ → ℚ) (perm : List ℕ) (alpha threshold : ℚ) :
    ℕ → (List Row × List ℚ × List ℚ) → ℚ → List ℚ
  | 0, st, _ => st.2.2
  | Nat.succ e, st, last_epoch_error =>
    let st1 := epochStep sg perm alpha st
    let err := computeError st1.2.1 (predict sg st1.1 st1.2.2 false)
    if |last_epoch_error - err| < threshold then st1.2.2
    else fitLoop sg perm alpha threshold e st1 err

/-- `fit(X, y, alpha=.1, epochs=100, threshold=1e-5)`: bias-augment `X`,
start from `theta = 0` and `last_epoch_error = 1e6`, draw one permutation
(`perm`, passed in as the realized value of `np.random.permutation(N)`),
then run the epoch loop. -/
def fit (sg : ℚ → ℚ) (perm : List ℕ) (X : List Row) (y : List ℚ)
    (alpha : ℚ) (epochs : ℕ) (threshold : ℚ) : List ℚ :=
  let Xb := addBias X
  let D := (Xb.headD []).length
  fitLoop sg perm alpha threshold epochs (Xb, y, List.replicate D 0) 1000000

/-- Index composition: `X[q][p] = X[permComp q p]`, i.e.
`(permComp q p)[i] = q[p[i]]`. -/
def permComp (q p : List ℕ) : List ℕ :=
  p.map (fun k => q.getD k 0)

/-- The visiting order of epoch `k` (1-indexed): the `k`-fold composition of
the drawn permutation, as an index list.  `permPow perm 0` is the identity
order `0, ..., N-1`. -/
def permPow (perm : List ℕ) : ℕ → List ℕ
  | 0 => List.range perm.length
  | Nat.succ k => permComp (permPow perm k) perm

end LR

/-! ### Spec-side model of the logistic-regression fit (for refinement)

`fitSpec` below is written from the spec's §4.3 wording, not from the
source: an explicit `Training → Converged / ExhaustedEpochs` state machine
whose epoch body applies the fixed permutation to `X` and `y`, performs the
online update `theta ← theta - alpha * (sigmoid(x·theta) - y) * x` one
example at a time, and compares `|last_epoch_error - this_epoch_error|`
with the threshold after the full epoch. -/

namespace LRSpec

/-- Terminal states of the spec's fit state machine, each carrying the
final weight vector. -/
inductive Outcome where
  | Converged (theta : List ℚ)
  | ExhaustedEpochs (theta : List ℚ)
deriving DecidableEq, Repr

/-- The weight vector carried by a terminal state. -/
def Outcome.theta : Outcome → List ℚ
  | .Converged t => t
  | .ExhaustedEpochs t => t

/-- One spec epoch: for every example `(x, y)` in order,
`theta ← theta - alpha * (sigmoid(x·theta) - y) * x`. -/
def specEpoch (sg : ℚ → ℚ) (alpha : ℚ) (Xp : List Row) (yp : List ℚ)
    (theta0 : List ℚ) : List ℚ :=
  (Xp.zip yp).foldl
    (fun th xy => (th.zip xy.1).map (fun t => t.1 - alpha * ((sg (dotl xy.1 th) - xy.2) * t.2)))
    theta0

/-- The spec's Training state, stepped until convergence or epoch
exhaustion: apply the permutation to `X` and `y`, run the online pass,
compute the training error on the full re-ordered set with the current
theta, and stop early exactly when it differs from the previous epoch's
error by less than `threshold`. -/
def run (sg : ℚ → ℚ) (perm : List ℕ) (alpha threshold : ℚ) :
    ℕ → (List Row × List ℚ) → List ℚ → ℚ → Outcome
  | 0, _, theta, _ => .ExhaustedEpochs theta
  | Nat.succ e, Xy, theta, lastErr =>
    let Xp := LR.applyPerm [] perm Xy.1
    let yp := LR.applyPerm 0 perm Xy.2
    let theta1 := specEpoch sg alpha Xp yp theta
    let err := computeError yp (LR.predict sg Xp theta1 false)
    if |lastErr - err| < threshold then .Converged theta1
    else run sg perm alpha threshold e (Xp, yp) theta1 err

/-- The spec's `fit`: bias augmentation, zero initial weights, sentinel
previous error `1e6`, one permutation fixed for the entire run. -/
def fitSpec (sg : ℚ → ℚ) (perm : List ℕ) (X : List Row) (y : List ℚ)
    (alpha : ℚ) (epochs : ℕ) (threshold : ℚ) : Outcome :=
  let Xb := LR.addBias X
  let D := (Xb.headD []).length
  run sg perm alpha threshold epochs (Xb, y) (List.replicate D 0) 1000000

end LRSpec

/-! ### Helper lemmas -/

lemma getD_map_of_lt {α β : Type} (l : List α) (f : α → β) {k : ℕ}
    (h : k < l.length) (d : β) (d' : α) : (l.map f).getD k d = f (l.getD k d') := by
  rw [List.getD_eq_getElem _ _ (by simpa using h), List.getD_eq_getElem _ _ h,
    List.getElem_map]

lemma threshold_map_iff (sg : ℚ → ℚ) (theta : List ℚ) (l : List Row) (i : ℕ) :
    ((l.map (fun row => if sg (dotl row theta) > 1 / 2 then (1 : ℚ) else 0)).getD i 0 = 1 ↔
      (l.map (fun row => sg (dotl row theta))).getD i 0 > 1 / 2) ∧
    ((l.map (fun row => sg (dotl row theta))).getD i 0 = 1 / 2 →
      (l.map (fun row => if sg (dotl row theta) > 1 / 2 then (1 : ℚ) else 0)).getD i 0 = 0) := by
  rcases Nat.lt_or_ge i l.length with h | h
  · rw [getD_map_of_lt l _ h _ [], getD_map_of_lt l _ h _ []]
    refine ⟨⟨fun h1 => ?_, fun hgt => ?_⟩, fun h12 => ?_⟩
    · by_contra hn
      rw [if_neg hn] at h1
      norm_num at h1
    · rw [if_pos hgt]
    · have hn : ¬ (sg (dotl (l.getD i []) theta) > 1 / 2) := by
        rw [h12]
        exact lt_irrefl _
      rw [if_neg hn]
  · rw [List.getD_eq_default _ _ (by simpa using h),
      List.getD_eq_default _ _ (by simpa using h)]
    norm_num

lemma processEntry_props (tol : ℚ) (ht0 : tol ≠ 0) (ht1 : tol ≠ 1) (w : Option ℚ) :
    ∃ q : ℚ, NB.processEntry tol w = some q ∧ q ≠ 0 ∧ q ≠ 1 := by
  rcases w with _ | q
  · refine ⟨tol, ?_, ht0, ht1⟩
    simp [NB.processEntry, ht0, ht1]
  · by_cases hq0 : q = 0
    · refine ⟨tol, ?_, ht0, ht1⟩
      simp [NB.processEntry, hq0, ht0, ht1]
    · by_cases hq1 : q = 1
      · refine ⟨1 - tol, ?_, fun hc => ht1 (by linarith), fun hc => ht0 (by linarith)⟩
        simp [NB.processEntry, hq0, hq1]
      · exact ⟨q, by simp [NB.processEntry, hq0, hq1], hq0, hq1⟩

lemma process_parameters_default_mem (p : List (Option ℚ)) (v : Option ℚ)
    (hv : v ∈ NB.process_parameters NB.defaultTolerance p) :
    v ≠ none ∧ v ≠ some 0 ∧ v ≠ some 1 := by
  rcases List.mem_map.1 hv with ⟨w, _, rfl⟩
  obtain ⟨q, heq, hq0, hq1⟩ := processEntry_props NB.defaultTolerance
    (by norm_num [NB.defaultTolerance]) (by norm_num [NB.defaultTolerance]) w
  rw [heq]
  exact ⟨by simp, by simpa using hq0, by simpa using hq1⟩

lemma fetchRows_eq (X : List Row) (ks : List ℕ) (h : ∀ k ∈ ks, k < X.length) :
    fetchRows X ks = some (ks.map (fun k => X.getD k [])) := by
  induction ks with
  | nil => rfl
  | cons k t ih =>
    have hk : k < X.length := h k (List.mem_cons_self _ _)
    have ht : ∀ a ∈ t, a < X.length := fun a ha => h a (List.mem_cons_of_mem _ ha)
    have hget : X[k]? = some (X.getD k []) := by
      rw [List.getElem?_eq_getElem hk, List.getD_eq_getElem _ _ hk]
    simp only [fetchRows, rowAt, hget, ih ht, List.map_cons]

lemma generateReplicate_eq (X : List Row) (nd : ℕ) (indices : List ℕ)
    (h1 : nd ≠ 0) (hlen : indices.length = nd) (hv : ∀ k ∈ indices, k < X.length) :
    generateReplicate X nd indices = some (indices.map (fun k => X.getD k [])) := by
  unfold generateReplicate
  have hc : ¬ (nd = 0 ∨ indices.length < nd) := by
    push_neg
    exact ⟨h1, by omega⟩
  rw [if_neg hc]
  have htake : indices.take nd = indices := by
    rw [← hlen]
    exact List.take_length _
  rw [htake]
  exact fetchRows_eq X indices hv

lemma genLoop_eq (X : List Row) (nd : ℕ) (draws : ℕ → List ℕ) (g : ℕ → List Row) :
    ∀ count i, (∀ j < count, generateReplicate X nd (draws (i + j)) = some (g (i + j))) →
      genLoop X nd draws i count = some ((List.range count).map (fun j => g (i + j))) := by
  intro count
  induction count with
  | zero => intro i _; rfl
  | succ k ih =>
    intro i h
    have h0 : generateReplicate X nd (draws i) = some (g i) := by
      have := h 0 (by omega)
      simpa using this
    have hrest : ∀ j < k, generateReplicate X nd (draws (i + 1 + j)) = some (g (i + 1 + j)) := by
      intro j hj
      have := h (j + 1) (by omega)
      have harith : i + (j + 1) = i + 1 + j := by omega
      rw [harith] at this
      exact this
    simp only [genLoop, h0, ih (i + 1) hrest]
    rw [List.range_succ_eq_map, List.map_cons, List.map_map]
    refine congrArg some ?_
    simp only [Nat.add_zero]
    refine congrArg (List.cons (g i)) ?_
    refine List.map_congr_left (fun j _ => ?_)
    simp only [Function.comp_apply]
    exact congrArg g (by omega)

lemma confusionLabels_eq_01 (y p : List ℤ)
    (hvals : ∀ v ∈ y ++ p, v = 0 ∨ v = 1)
    (h0 : (0 : ℤ) ∈ y ++ p) (h1 : (1 : ℤ) ∈ y ++ p) :
    confusionLabels y p = [0, 1] := by
  have hperm : List.Perm ((y ++ p).dedup) [0, 1] := by
    apply List.perm_of_nodup_nodup_toFinset_eq (List.nodup_dedup _) (by decide)
    ext a
    simp only [List.mem_toFinset, List.mem_dedup]
    constructor
    · intro ha
      simpa using hvals a ha
    · intro ha
      have ha2 : a = 0 ∨ a = 1 := by simpa using ha
      rcases ha2 with rfl | rfl
      · exact h0
      · exact h1
  have hsorted : List.Sorted (fun a b : ℤ => a ≤ b) [0, 1] := by decide
  exact List.eq_of_perm_of_sorted ((List.perm_insertionSort _ _).trans hperm)
    (List.sorted_insertionSort _ _) hsorted

lemma countP_four_sum (l : List (ℤ × ℤ))
    (h : ∀ uv ∈ l, (uv.1 = 0 ∨ uv.1 = 1) ∧ (uv.2 = 0 ∨ uv.2 = 1)) :
    l.countP (fun uv => decide (uv.1 = 0 ∧ uv.2 = 0)) +
      l.countP (fun uv => decide (uv.1 = 0 ∧ uv.2 = 1)) +
      l.countP (fun uv => decide (uv.1 = 1 ∧ uv.2 = 0)) +
      l.countP (fun uv => decide (uv.1 = 1 ∧ uv.2 = 1)) = l.length := by
  induction l with
  | nil => rfl
  | cons a t ih =>
    have ha := h a (List.mem_cons_self _ _)
    have IH := ih (fun uv huv => h uv (List.mem_cons_of_mem _ huv))
    simp only [List.countP_cons, List.length_cons]
    rcases ha with ⟨ha1 | ha1, ha2 | ha2⟩ <;> simp [ha1, ha2] at IH ⊢ <;> omega

/-! ### Claim theorems -/

/-- Claim C8: for every feature matrix `X` and weight vector `theta`, the
`i`-th entry of `predict(X, theta)` equals `1` iff the `i`-th entry of
`predictSoft(X, theta)` is strictly greater than `0.5`, and an entry exactly
equal to `0.5` yields prediction `0` (out-of-range positions read the `getD`
defaults `0`, for which both sides are false/vacuous).  This holds for both
values of `add_bias` and for an arbitrary elementwise `sigmoid`. -/
theorem predict_one_iff_predictSoft_gt_half (sg : ℚ → ℚ) (X : List Row)
    (theta : List ℚ) (b : Bool) (i : ℕ) :
    ((LR.predict sg X theta b).getD i 0 = 1 ↔
      (LR.predictSoft sg X theta b).getD i 0 > 1 / 2) ∧
    ((LR.predictSoft sg X theta b).getD i 0 = 1 / 2 →
      (LR.predict sg X theta b).getD i 0 = 0) := by
  have h := threshold_map_iff sg theta (if b then LR.addBias X else X) i
  simpa [LR.predict, LR.predictSoft] using h

/-- Claim C9: Naive Bayes `predict` is a deterministic function of its
inputs (it is modelled as a pure function of the feature matrix, the
parameters and the label convention, with no other state), and calling it
with `ham_label = -1` instead of `0` maps each output `0` to `-1` and each
`1` to `1` (`predicted * 2 - 1`), without changing which examples are
classified as spam (output `= 1` in either encoding). -/
theorem predict_relabel_minus_one (logf : ℚ → ℚ) (X : List Row)
    (php pps : ℚ) (lh ls : List ℚ) (sl : ℤ) :
    NB.predict logf X php pps lh ls (-1) sl =
      (NB.predict logf X php pps lh ls 0 sl).map (fun p => p * 2 - 1) ∧
    ∀ i : ℕ, ((NB.predict logf X php pps lh ls (-1) sl)[i]? = some 1 ↔
      (NB.predict logf X php pps lh ls 0 sl)[i]? = some 1) := by
  have hmap : NB.predict logf X php pps lh ls (-1) sl =
      (NB.predict logf X php pps lh ls 0 sl).map (fun p => p * 2 - 1) := by
    simp [NB.predict, List.map_map, Function.comp]
  refine ⟨hmap, fun i => ?_⟩
  rw [hmap, List.getElem?_map]
  cases h : (NB.predict logf X php pps lh ls 0 sl)[i]? with
  | none => simp
  | some p =>
    constructor
    · intro hq
      have hp : p * 2 - 1 = 1 := by simpa using hq
      have hp1 : p = 1 := by omega
      simp [hp1]
    · intro hq
      have hp1 : p = 1 := by simpa using hq
      simp [hp1]

/-- Claim C3 (the code deviates from it): at the input
`X = [[0],[1]], y = [0, 1]` the ham likelihood entry `0` is replaced by
`process_parameters`'s *default* tolerance `1e-10` — not by the `1e-30`
that `fit` assigns to its local `tolerance` variable but never passes on —
and the spam likelihood entry `1` becomes `1 - 1e-10`. -/
theorem fit_stabilizes_with_default_tolerance :
    (NB.fit [[0], [1]] [0, 1] 0 1).2.2.1 = [some ((1 : ℚ) / 10 ^ 10)] ∧
    (NB.fit [[0], [1]] [0, 1] 0 1).2.2.2 = [some (1 - (1 : ℚ) / 10 ^ 10)] ∧
    (NB.fit [[0], [1]] [0, 1] 0 1).2.2.1 ≠ [some ((1 : ℚ) / 10 ^ 30)] := by
  refine ⟨?_, ?_, ?_⟩ <;>
    norm_num [NB.fit, NB.countDiv, NB.process_parameters, NB.processEntry,
      NB.classLikelihood, NB.defaultTolerance, List.countP, List.countP.go,
      List.filter, List.range, List.range.loop]

/-- Claim C2 counterexample: with `X = [[1]], y = [1]` the ham subset is
empty, yet `fit` raises nothing: the `0/0` NaN likelihood is replaced by the
tolerance during stabilization and a full parameter tuple is returned
(priors `(0, 1)`, likelihoods `([1e-10], [1 - 1e-10])`), contradicting
"fails with `InsufficientData` ... does not return a parameter tuple". -/
theorem fit_returns_tuple_on_empty_ham_class :
    NB.fit [[1]] [1] 0 1 =
      (some 0, some 1, [some ((1 : ℚ) / 10 ^ 10)], [some (1 - (1 : ℚ) / 10 ^ 10)]) := by
  norm_num [NB.fit, NB.countDiv, NB.process_parameters, NB.processEntry,
    NB.classLikelihood, NB.defaultTolerance, List.countP, List.countP.go,
    List.filter, List.range, List.range.loop]

/-- Claim C4 counterexample: for `y = [0]` and `predictions = [0]` only the
single label value `0` occurs, sklearn's confusion matrix is 1×1, and
`computeMetrics` fails with an IndexError (`none`) instead of returning four
counts. -/
theorem computeMetrics_single_label_fails :
    computeMetrics [0] [0] = none := by
  decide

/-- Claim C4 amended: `computeMetrics` returns four counts summing to
`len(y)` whenever both label values `0` and `1` occur somewhere in the two
vectors (so that the confusion matrix is 2×2); when only one value occurs
the call fails with an IndexError instead (see the counterexample). -/
theorem computeMetrics_sum_eq_length (y p : List ℤ)
    (hlen : y.length = p.length)
    (hvals : ∀ v ∈ y ++ p, v = 0 ∨ v = 1)
    (h0 : (0 : ℤ) ∈ y ++ p) (h1 : (1 : ℤ) ∈ y ++ p) :
    ∃ tp fp fn tn, computeMetrics y p = some (tp, fp, fn, tn) ∧
      tp + fp + fn + tn = y.length := by
  have hlab := confusionLabels_eq_01 y p hvals h0 h1
  refine ⟨(y.zip p).countP (fun uv => decide (uv.1 = 0 ∧ uv.2 = 0)),
    (y.zip p).countP (fun uv => decide (uv.1 = 0 ∧ uv.2 = 1)),
    (y.zip p).countP (fun uv => decide (uv.1 = 1 ∧ uv.2 = 0)),
    (y.zip p).countP (fun uv => decide (uv.1 = 1 ∧ uv.2 = 1)), ?_, ?_⟩
  · simp only [computeMetrics, confusion_matrix, hlab, List.map_cons, List.map_nil]
    rfl
  · have hz : ∀ uv ∈ y.zip p, (uv.1 = 0 ∨ uv.1 = 1) ∧ (uv.2 = 0 ∨ uv.2 = 1) := by
      rintro ⟨u, v⟩ huv
      have hm := List.of_mem_zip huv
      exact ⟨hvals u (List.mem_append_left _ hm.1), hvals v (List.mem_append_right _ hm.2)⟩
    have hsum := countP_four_sum (y.zip p) hz
    have hzl : (y.zip p).length = y.length := by
      rw [List.length_zip, hlen, Nat.min_self]
    rw [hzl] at hsum
    exact hsum

/-- Witness for the amended C4 at `y = [0, 1]`, `p = [1, 1]`. -/
theorem computeMetrics_sum_eq_length_witness :
    computeMetrics [0, 1] [1, 1] = some (0, 1, 0, 1) ∧ 0 + 1 + 0 + 1 = 2 := by
  obtain ⟨tp, fp, fn, tn, h1, h2⟩ :=
    computeMetrics_sum_eq_length [0, 1] [1, 1] rfl (by decide) (by decide) (by decide)
  have hc : computeMetrics [0, 1] [1, 1] = some (0, 1, 0, 1) := by decide
  rw [hc] at h1
  exact ⟨hc, by omega⟩

/-- Claim C5: `computeMetrics` uses the ham-class-is-positive convention:
whenever the confusion matrix is 2×2 (both values `0` and `1` occur), TP
counts pairs with actual ham (`0`) and predicted ham, FP actual ham and
predicted spam (`1`), FN actual spam and predicted ham, and TN actual spam
and predicted spam. -/
theorem computeMetrics_ham_positive_convention (y p : List ℤ)
    (hvals : ∀ v ∈ y ++ p, v = 0 ∨ v = 1)
    (h0 : (0 : ℤ) ∈ y ++ p) (h1 : (1 : ℤ) ∈ y ++ p) :
    computeMetrics y p = some
      ((y.zip p).countP (fun uv => decide (uv.1 = 0 ∧ uv.2 = 0)),
       (y.zip p).countP (fun uv => decide (uv.1 = 0 ∧ uv.2 = 1)),
       (y.zip p).countP (fun uv => decide (uv.1 = 1 ∧ uv.2 = 0)),
       (y.zip p).countP (fun uv => decide (uv.1 = 1 ∧ uv.2 = 1))) := by
  have hlab := confusionLabels_eq_01 y p hvals h0 h1
  simp only [computeMetrics, confusion_matrix, hlab, List.map_cons, List.map_nil]
  rfl

/-- Witness for C5 at `y = [0, 1]`, `p = [1, 0]` (one ham predicted spam,
one spam predicted ham). -/
theorem computeMetrics_ham_positive_convention_witness :
    computeMetrics [0, 1] [1, 0] = some (0, 1, 1, 0) := by
  have h := computeMetrics_ham_positive_convention [0, 1] [1, 0]
    (by decide) (by decide) (by decide)
  rw [h]
  decide

/-- Claim C1: called with a base matrix `X`, a draw count `n_draws ≥ 1`, and
a replicate count `n_replicates`, the replicate generator produces a
sequence of exactly `n_replicates` replicate matrices; the `i`-th replicate
is built from its own draw `draws i` (each loop iteration calls
`sampleWithReplacement` afresh), and consists of the rows of `X` at that
draw's indices, in draw order.  The hypotheses on `draws` are exactly what
`np.random.choice(len(X), n_draws)` guarantees for its output. -/
theorem generateBootstraps_count_and_draws (X : List Row) (nd nr : ℕ)
    (draws : ℕ → List ℕ) (hnd : 1 ≤ nd)
    (hdraws : ∀ i < nr, (draws i).length = nd ∧ ∀ k ∈ draws i, k < X.length) :
    ∃ reps, generateBootstraps X nd nr draws = some reps ∧
      reps.length = nr ∧
      ∀ i < nr, reps[i]? = some ((draws i).map (fun k => X.getD k [])) := by
  refine ⟨(List.range nr).map (fun i => (draws i).map (fun k => X.getD k [])),
    ?_, by simp, ?_⟩
  · unfold generateBootstraps
    have hall : ∀ j < nr, generateReplicate X nd (draws (0 + j)) =
        some ((fun i => (draws i).map (fun k => X.getD k [])) (0 + j)) := by
      intro j hj
      simp only [Nat.zero_add]
      exact generateReplicate_eq X nd (draws j) (by omega) (hdraws j hj).1 (hdraws j hj).2
    have := genLoop_eq X nd draws (fun i => (draws i).map (fun k => X.getD k [])) nr 0 hall
    simpa using this
  · intro i hi
    rw [List.getElem?_map]
    rw [List.getElem?_range hi]
    rfl

/-- Witness for C1 at `X = [[1],[2]]`, `n_draws = 2`, `n_replicates = 2`,
with draw `i` being `[i % 2, 0]`: two replicates are produced, each from its
own draw. -/
theorem generateBootstraps_count_and_draws_witness :
    generateBootstraps [[1], [2]] 2 2 (fun i => [i % 2, 0]) =
      some [[[1], [1]], [[2], [1]]] := by
  have hdr : ∀ i < 2, ((fun i => [i % 2, 0]) i).length = 2 ∧
      ∀ k ∈ (fun i => [i % 2, 0]) i, k < ([[1], [2]] : List Row).length := by
    intro i _
    refine ⟨by simp, ?_⟩
    intro k hk
    have hk2 : k = i % 2 ∨ k = 0 := by simpa using hk
    rcases hk2 with h | h
    · simp [h]
      omega
    · simp [h]
  obtain ⟨reps, h1, h2, h3⟩ :=
    generateBootstraps_count_and_draws [[1], [2]] 2 2 (fun i => [i % 2, 0])
      (by omega) hdr
  have e0 := h3 0 (by omega)
  have e1 := h3 1 (by omega)
  have hreps : reps = [[[1], [1]], [[2], [1]]] := by
    refine List.ext_getElem? (fun i => ?_)
    match i with
    | 0 => rw [e0]; rfl
    | 1 => rw [e1]; rfl
    | (n + 2) =>
      have hlen : reps.length ≤ n + 2 := by rw [h2]; omega
      rw [List.getElem?_eq_none hlen]
      rfl
  rw [hreps] at h1
  exact h1

/-- Claim C2 amended: with every row carrying one of the two class labels,
`fit` does *not* fail when the ham (resp. spam) subset is empty; the
`0/0` NaN likelihood entries are all replaced by the tolerance during
stabilization, and a full parameter tuple is returned (its likelihood
vector for the empty class is `D` copies of the tolerance). -/
theorem fit_empty_class_yields_tolerance_entries (X : List Row) (y : List ℤ)
    (hl sl : ℤ) :
    ((∀ l ∈ y, l ≠ hl) → (NB.fit X y hl sl).2.2.1 =
      List.replicate (X.headD []).length (some NB.defaultTolerance)) ∧
    ((∀ l ∈ y, l ≠ sl) → (NB.fit X y hl sl).2.2.2 =
      List.replicate (X.headD []).length (some NB.defaultTolerance)) := by
  have hkey : ∀ lab : ℤ, (∀ l ∈ y, l ≠ lab) →
      NB.process_parameters NB.defaultTolerance
        (NB.classLikelihood (X.headD []).length
          (((X.zip y).filter (fun ry => decide (ry.2 = lab))).map Prod.fst)) =
      List.replicate (X.headD []).length (some NB.defaultTolerance) := by
    intro lab hno
    have hfil : (X.zip y).filter (fun ry => decide (ry.2 = lab)) = [] := by
      rw [List.filter_eq_nil_iff]
      rintro ⟨r, lab2⟩ hry
      have hmem : lab2 ∈ y := (List.of_mem_zip hry).2
      simpa using hno lab2 hmem
    rw [hfil]
    simp only [List.map_nil, NB.classLikelihood, NB.process_parameters, List.map_map]
    have hone : ∀ d : ℕ,
        NB.processEntry NB.defaultTolerance
          (NB.countDiv ((([] : List Row).map (fun r => r.getD d 0)).sum)
            ([] : List Row).length) = some NB.defaultTolerance := by
      intro d
      norm_num [NB.countDiv, NB.processEntry, NB.defaultTolerance]
    calc (List.range (X.headD []).length).map
          ((NB.processEntry NB.defaultTolerance) ∘
            (fun d => NB.countDiv ((([] : List Row).map (fun r => r.getD d 0)).sum)
              ([] : List Row).length))
        = (List.range (X.headD []).length).map (fun _ => some NB.defaultTolerance) := by
          refine List.map_congr_left (fun d _ => ?_)
          simp only [Function.comp_apply]
          exact hone d
      _ = List.replicate (X.headD []).length (some NB.defaultTolerance) := by
          simp [List.map_const']
  constructor
  · intro hno
    simpa only [NB.fit] using hkey hl hno
  · intro hno
    simpa only [NB.fit] using hkey sl hno

/-- Witness for the amended C2 at `X = [[1]]`, `y = [1]`, where the ham
subset is empty. -/
theorem fit_empty_class_yields_tolerance_entries_witness :
    (NB.fit [[1]] [1] 0 1).2.2.1 = List.replicate 1 (some NB.defaultTolerance) :=
  (fit_empty_class_yields_tolerance_entries [[1]] [1] 0 1).1 (by decide)

/-- Claim C7: after stabilization, no entry of either likelihood vector
returned by Naive Bayes `fit` equals exactly `0`, exactly `1`, or NaN —
proved for *every* input matrix and label vector (in particular for binary
matrices with all-zero or all-one feature columns). -/
theorem fit_likelihoods_stabilized (X : List Row) (y : List ℤ) (hl sl : ℤ)
    (v : Option ℚ)
    (hv : v ∈ (NB.fit X y hl sl).2.2.1 ∨ v ∈ (NB.fit X y hl sl).2.2.2) :
    v ≠ none ∧ v ≠ some 0 ∧ v ≠ some 1 := by
  rcases hv with h | h
  · simp only [NB.fit] at h
    exact process_parameters_default_mem _ v h
  · simp only [NB.fit] at h
    exact process_parameters_default_mem _ v h

/-- Claim C6: logistic-regression `fit` refines the spec's state machine.
The permutation is drawn once (the single `perm` argument threaded through
the whole run); each epoch re-applies it and performs the per-example
update `theta ← theta - alpha * (sigmoid(x·theta) - y) * x`; after each
full epoch the loop stops early exactly when
`|last_epoch_error - this_epoch_error| < threshold` (spec state
`Converged`), and otherwise continues until `epochs` is exhausted (spec
state `ExhaustedEpochs`).  `fit` returns precisely the weight vector
carried by the terminal state of the spec machine `fitSpec`, which encodes
those rules verbatim. -/
theorem fit_refines_spec_state_machine (sg : ℚ → ℚ) (perm : List ℕ)
    (X : List Row) (y : List ℚ) (alpha : ℚ) (epochs : ℕ) (threshold : ℚ) :
    LR.fit sg perm X y alpha epochs threshold =
      (LRSpec.fitSpec sg perm X y alpha epochs threshold).theta := by
  suffices h : ∀ (e : ℕ) (Xc : List Row) (yc th : List ℚ) (lastErr : ℚ),
      LR.fitLoop sg perm alpha threshold e (Xc, yc, th) lastErr =
        (LRSpec.run sg perm alpha threshold e (Xc, yc) th lastErr).theta by
    exact h epochs (LR.addBias X) y (List.replicate ((LR.addBias X).headD []).length 0) 1000000
  intro e
  induction e with
  | zero => intro Xc yc th lastErr; rfl
  | succ k ih =>
    intro Xc yc th lastErr
    have hinner : LR.innerPass sg alpha th
        ((LR.applyPerm [] perm Xc).zip (LR.applyPerm 0 perm yc)) =
        LRSpec.specEpoch sg alpha (LR.applyPerm [] perm Xc) (LR.applyPerm 0 perm yc) th := rfl
    simp only [LR.fitLoop, LR.epochStep, LRSpec.run, hinner]
    split_ifs with hc
    · rfl
    · exact ih _ _ _ _

/-- Composition of fancy indexing: `X[q][p] = X[permComp q p]` whenever
`p`'s entries index into `q`. -/
lemma applyPerm_applyPerm {α : Type} (d : α) (q p : List ℕ) (X : List α)
    (hv : ∀ k ∈ p, k < q.length) :
    LR.applyPerm d p (LR.applyPerm d q X) = LR.applyPerm d (LR.permComp q p) X := by
  unfold LR.applyPerm LR.permComp
  rw [List.map_map]
  refine List.map_congr_left (fun k hk => ?_)
  simp only [Function.comp_apply]
  rw [getD_map_of_lt q _ (hv k hk) d 0]

lemma applyPerm_range {α : Type} (d : α) (l : List α) :
    LR.applyPerm d (List.range l.length) l = l := by
  refine List.ext_getElem (by simp [LR.applyPerm]) (fun j h1 h2 => ?_)
  simp only [LR.applyPerm, List.getElem_map]
  rw [List.getElem_range, List.getD_eq_getElem _ _ h2]

lemma permPow_length (p : List ℕ) (i : ℕ) : (LR.permPow p i).length = p.length := by
  cases i with
  | zero => simp [LR.permPow]
  | succ k => simp [LR.permPow, LR.permComp]

lemma permPow_getD (p : List ℕ) (hv : ∀ k ∈ p, k < p.length) (i : ℕ) :
    ∀ j, j < p.length →
      (LR.permPow p i).getD j 0 = (fun k => p.getD k 0)^[i] j := by
  induction i with
  | zero =>
    intro j hj
    rw [Function.iterate_zero]
    simp only [LR.permPow, id_eq]
    rw [List.getD_eq_getElem _ _ (by simpa using hj), List.getElem_range]
  | succ k ih =>
    intro j hj
    show (LR.permComp (LR.permPow p k) p).getD j 0 = _
    unfold LR.permComp
    rw [getD_map_of_lt p _ hj _ 0]
    have hpj : p.getD j 0 < p.length := by
      rw [List.getD_eq_getElem _ _ hj]
      exact hv _ (List.getElem_mem hj)
    rw [ih _ hpj, Function.iterate_succ_apply]

lemma getD_inj_of_nodup (p : List ℕ) (hnd : p.Nodup) {a b : ℕ}
    (ha : a < p.length) (hb : b < p.length) (h : p.getD a 0 = p.getD b 0) :
    a = b := by
  rw [List.getD_eq_getElem _ _ ha, List.getD_eq_getElem _ _ hb] at h
  exact (List.Nodup.getElem_inj_iff hnd).1 h

lemma iterate_getD_inj (p : List ℕ) (hv : ∀ k ∈ p, k < p.length) (hnd : p.Nodup) :
    ∀ (m : ℕ) {a b : ℕ}, a < p.length → b < p.length →
      (fun k => p.getD k 0)^[m] a = (fun k => p.getD k 0)^[m] b → a = b := by
  intro m
  induction m with
  | zero =>
    intro a b _ _ h
    simpa using h
  | succ k ih =>
    intro a b ha hb h
    rw [Function.iterate_succ_apply, Function.iterate_succ_apply] at h
    have hfa : p.getD a 0 < p.length := by
      rw [List.getD_eq_getElem _ _ ha]
      exact hv _ (List.getElem_mem ha)
    have hfb : p.getD b 0 < p.length := by
      rw [List.getD_eq_getElem _ _ hb]
      exact hv _ (List.getElem_mem hb)
    exact getD_inj_of_nodup p hnd ha hb (ih hfa hfb h)

lemma permPow_succ_ne (p : List ℕ) (hv : ∀ k ∈ p, k < p.length) (hnd : p.Nodup)
    (hne : p ≠ List.range p.length) (i : ℕ) :
    LR.permPow p (i + 1) ≠ LR.permPow p (i + 2) := by
  intro heq
  apply hne
  have hgetD : ∀ j, j < p.length → p.getD j 0 = j := by
    intro j hj
    have h1 := permPow_getD p hv (i + 1) j hj
    have h2 := permPow_getD p hv (i + 2) j hj
    rw [heq, h2] at h1
    have hfj : p.getD j 0 < p.length := by
      rw [List.getD_eq_getElem _ _ hj]
      exact hv _ (List.getElem_mem hj)
    have h3 : (fun k => p.getD k 0)^[i + 1] ((fun k => p.getD k 0) j) =
        (fun k => p.getD k 0)^[i + 1] j := by
      rw [← Function.iterate_succ_apply]
      exact h1
    exact iterate_getD_inj p hv hnd (i + 1) hfj hj h3
  refine List.ext_getElem (by simp) (fun j h1 h2 => ?_)
  rw [List.getElem_range]
  have := hgetD j h1
  rwa [List.getD_eq_getElem _ _ h1] at this

/-- Claim C10: in `fit`'s epoch loop the single drawn permutation is
re-applied to the working copies at the start of every epoch, so the matrix
visited by the inner loop of epoch `i` (1-indexed; i.e. after `i`
applications of `epochStep`) is the base matrix reordered by the `i`-fold
composition `permPow perm i`; and for any valid permutation other than the
identity, consecutive epochs visit the examples in different orders
(`permPow perm (i+1) ≠ permPow perm (i+2)` for every `i`). -/
theorem epoch_order_is_perm_power (sg : ℚ → ℚ) (alpha : ℚ) (perm : List ℕ)
    (X0 : List Row) (y0 theta0 : List ℚ)
    (hX : X0.length = perm.length)
    (hv : ∀ k ∈ perm, k < perm.length) :
    (∀ i : ℕ, ((LR.epochStep sg perm alpha)^[i] (X0, y0, theta0)).1 =
      LR.applyPerm [] (LR.permPow perm i) X0) ∧
    (perm.Nodup → perm ≠ List.range perm.length →
      ∀ i : ℕ, LR.permPow perm (i + 1) ≠ LR.permPow perm (i + 2)) := by
  constructor
  · intro i
    induction i with
    | zero =>
      show X0 = LR.applyPerm [] (LR.permPow perm 0) X0
      have : LR.permPow perm 0 = List.range X0.length := by
        rw [hX]
        rfl
      rw [this, applyPerm_range]
    | succ k ih =>
      rw [Function.iterate_succ_apply']
      have hstep : (LR.epochStep sg perm alpha
          ((LR.epochStep sg perm alpha)^[k] (X0, y0, theta0))).1 =
          LR.applyPerm [] perm ((LR.epochStep sg perm alpha)^[k] (X0, y0, theta0)).1 := rfl
      rw [hstep, ih,
        applyPerm_applyPerm [] (LR.permPow perm k) perm X0
          (fun a ha => by rw [permPow_length]; exact hv a ha)]
      rfl
  · intro hnd hne i
    exact permPow_succ_ne perm hv hnd hne i

/-- Witness for C10 with the non-identity permutation `[1, 0]` on the
two-row matrix `[[1], [2]]`: after two epochs the working matrix is the
matrix reordered by `permPow [1,0] 2`, and the first two epoch orders
differ. -/
theorem epoch_order_is_perm_power_witness :
    (((LR.epochStep (fun z => z) [1, 0] 0)^[2] (([[1], [2]] : List Row), ([1, 2] : List ℚ), ([0, 0] : List ℚ))).1 =
      LR.applyPerm [] (LR.permPow [1, 0] 2) ([[1], [2]] : List Row)) ∧
    LR.permPow [1, 0] (0 + 1) ≠ LR.permPow [1, 0] (0 + 2) := by
  have h := epoch_order_is_perm_power (fun z => z) 0 [1, 0]
    ([[1], [2]] : List Row) ([1, 2] : List ℚ) ([0, 0] : List ℚ)
    (by decide) (by decide)
  exact ⟨h.1 2, h.2 (by decide) (by decide) 0⟩

/-- Witness for C7: the stabilized ham-likelihood entry of
`fit([[1]], [1])` (an all-one column with an empty ham class). -/
theorem fit_likelihoods_stabilized_witness :
    (some NB.defaultTolerance ∈ (NB.fit [[1]] [1] 0 1).2.2.1) ∧
    (some NB.defaultTolerance ≠ (none : Option ℚ) ∧
      some NB.defaultTolerance ≠ some (0 : ℚ) ∧
      some NB.defaultTolerance ≠ some (1 : ℚ)) := by
  have hmem : some NB.defaultTolerance ∈ (NB.fit [[1]] [1] 0 1).2.2.1 := by
    norm_num [NB.fit, NB.countDiv, NB.process_parameters, NB.processEntry,
      NB.classLikelihood, NB.defaultTolerance, List.countP, List.countP.go,
      List.filter, List.range, List.range.loop]
  exact ⟨hmem, fit_likelihoods_stabilized [[1]] [1] 0 1 (some NB.defaultTolerance)
    (Or.inl hmem)⟩

end SpamFilter
